import Mathlib

/-!
Shallow embedding of the `rust-fsm` DSL compiler (crates `rust-fsm-dsl` and
`nxt-fsm-dsl`) and proofs about its guard expansion, dispatch compilation,
alphabet construction, parse-time validation and diagram rendering.

Identifiers (`syn::Ident`) are modelled as `String`; the values carried by
input-event tuple fields are modelled as `Int`.  Guard closures and
call-expression outputs are opaque Rust expressions that the compiler never
inspects, only arranges call sites for; they are modelled as Lean functions
over the bound field values, paired (for guards) with their token text, which
the diagram renderer prints.  `BTreeSet`/`BTreeMap` containers are modelled as
sorted duplicate-free lists under the byte order on strings, with
`entry().or_insert` keeping the first-seen value exactly as in the source.
-/

/-! ### Byte order on strings (the `Ord` used by `BTreeSet`/`BTreeMap` keys) -/

/-- Lexicographic order on the character lists of two strings, comparing
code points, mirroring `Ord for syn::Ident` (byte order on the textual name). -/
def strLtAux : List Char → List Char → Bool
  | [], [] => false
  | [], _ :: _ => true
  | _ :: _, [] => false
  | a :: as, b :: bs =>
    if a.toNat < b.toNat then true
    else if b.toNat < a.toNat then false
    else strLtAux as bs

/-- Byte order on strings. -/
def strLt (s t : String) : Bool := strLtAux s.data t.data

/-- Ordered-set insertion for `BTreeSet<&Ident>`: keeps the list strictly
sorted by `strLt` and never replaces an element already present. -/
def insertStr : List String → String → List String
  | [], x => [x]
  | y :: ys, x =>
    if strLt x y then x :: y :: ys
    else if x == y then y :: ys
    else y :: insertStr ys x

/-- Lexicographic order on `(Ident, Ident)` keys of
`BTreeMap<(&Ident, &Ident), _>`. -/
def pairLt (p q : String × String) : Bool :=
  strLt p.1 q.1 || (p.1 == q.1 && strLt p.2 q.2)

/-- Ordered-set insertion for sets of `(state, input)` keys. -/
def insertPair : List (String × String) → (String × String) → List (String × String)
  | [], p => [p]
  | q :: qs, p =>
    if pairLt p q then p :: q :: qs
    else if p = q then q :: qs
    else q :: insertPair qs p

/-! ### Patterns of `match`-guard arms

A `MatchArm.pattern` in the source is a `syn::Expr` handed to Rust's
`matches!` macro.  The fragment of Rust patterns the DSL exercises (wildcards,
integer literals, half-open integer ranges, and tuples of these over the bound
field values) is embedded below; `matches` is the Rust pattern-matching
semantics of that fragment against the tuple of bound field values. -/

/-- A scalar pattern over one bound field value. -/
inductive SPat where
  | wild
  | lit (n : Int)
  | intRange (lo : Int) (hi : Option Int)
deriving DecidableEq

/-- Rust semantics of a scalar pattern: `_`, a literal, `lo..hi` or `lo..`. -/
def SPat.matches : SPat → Int → Bool
  | .wild, _ => true
  | .lit n, v => n == v
  | .intRange lo hi, v =>
    decide (lo ≤ v) && (match hi with | none => true | some h => decide (v < h))

/-- Componentwise match of a tuple pattern against the bound values. -/
def spatsMatch : List SPat → List Int → Bool
  | [], [] => true
  | p :: ps, v :: vs => p.matches v && spatsMatch ps vs
  | _, _ => false

/-- A `match`-guard arm pattern over the tuple of bound field values:
either the unconditional wildcard `_` or a tuple of scalar patterns
(a single scalar when one field is bound). -/
inductive Pat where
  | wild
  | scalars (ps : List SPat)
deriving DecidableEq

/-- `matches! ((b0, …, bk), pattern)` on the bound field values. -/
def Pat.matches : Pat → List Int → Bool
  | .wild, _ => true
  | .scalars ps, vs => spatsMatch ps vs

/-- Token text of a scalar pattern. -/
def SPat.render : SPat → String
  | .wild => "_"
  | .lit n => toString n
  | .intRange lo hi => toString lo ++ ".." ++ (match hi with | none => "" | some h => toString h)

/-- Comma-separated join of a rendered punctuated sequence (the exact
whitespace of the token-stream printer is abstracted). -/
def joinComma : List String → String
  | [] => ""
  | [x] => x
  | x :: xs => x ++ ", " ++ joinComma xs

/-- Token text of an arm pattern. -/
def Pat.render : Pat → String
  | .wild => "_"
  | .scalars [p] => p.render
  | .scalars ps => "(" ++ joinComma (ps.map SPat.render) ++ ")"

/-! ### The `rust-fsm-dsl` specification tree (`parser.rs`, `parser/*.rs`) -/

/-- `InputVariant`: event name plus the ordered list of field types
(type paths modelled by their token text). -/
structure InputVariant where
  name : String
  fields : List String

/-- A guard expression (`syn::Expr`): its evaluation semantics on the bound
field values (for a unit input the expression itself is the boolean, modelled
as application to `[]`), and its token text as printed by `quote!`, used only
by the diagram renderer. -/
structure GuardExpr where
  pred : List Int → Bool
  text : String

/-- A generated-or-external output value: a constant `Output` enum variant or
the value a call-expression output produced. -/
inductive OutVal where
  | const (id : String)
  | val (n : Int)
deriving DecidableEq

/-- `OutputSpec`: a constant output identifier, or an opaque call expression
invoked with the bound field values at dispatch time. -/
inductive OutputSpec where
  | constant (id : String)
  | call (f : List Int → OutVal)

/-- `MatchArm`: pattern, target state, optional output. -/
structure MatchArm where
  pattern : Pat
  final_state : String
  output : Option OutputSpec

/-- `BindingGuard::guard_expr_for_arm` (`parser/guard.rs` 20–43): the generated
closure `|b0: &T0, …| matches!((b0, …), pattern)`.  Its semantics is the
pattern match of the arm's pattern against the tuple of bound field values.
(The source `assert!`s that `bindings.len() == fields.len()`.) -/
def guard_expr_for_arm (bindings : List String) (fields : List String) (arm : MatchArm) :
    GuardExpr where
  pred := fun vals => arm.pattern.matches vals
  text := "|" ++ joinComma (List.zipWith (fun b t => b ++ ": &" ++ t) bindings fields)
    ++ "| matches!((" ++ joinComma bindings ++ "), " ++ arm.pattern.render ++ ")"

/-- `TransitionEntry` (`parser/transition.rs`): the parse of one entry.  The
parser guarantees that a `match` (Binding) guard carries no entry-level target
or output while the other two forms always carry a target, so the parsed entry
is faithfully a sum of the three shapes. -/
inductive TransitionEntry where
  | simple (input : InputVariant) (final_state : String) (output : Option OutputSpec)
  | ifGuard (input : InputVariant) (guard : GuardExpr) (final_state : String)
      (output : Option OutputSpec)
  | matchGuard (input : InputVariant) (bindings : List String) (arms : List MatchArm)

/-- `TransitionDef`: a source state with its ordered entries. -/
structure TransitionDef where
  initial_state : String
  transitions : List TransitionEntry

/-- The flat, guard-resolved transition case (`Transition` in `lib.rs`). -/
structure Transition where
  initial_state : String
  input_value : InputVariant
  guard_expr : Option GuardExpr
  final_state : String
  output : Option OutputSpec

/-- Guard expansion of one entry (`lib.rs` 72–121): a Binding guard expands
into one case per arm in arm order with the generated per-arm predicate; an
`if` guard and a guard-less entry yield a single case. -/
def expandEntry (initial_state : String) : TransitionEntry → List Transition
  | .matchGuard input bindings arms =>
    arms.map fun arm =>
      { initial_state := initial_state
        input_value := input
        guard_expr := some (guard_expr_for_arm bindings input.fields arm)
        final_state := arm.final_state
        output := arm.output }
  | .ifGuard input g final_state out =>
    [{ initial_state := initial_state
       input_value := input
       guard_expr := some g
       final_state := final_state
       output := out }]
  | .simple input final_state out =>
    [{ initial_state := initial_state
       input_value := input
       guard_expr := none
       final_state := final_state
       output := out }]

/-- The full ordered transition-case list of a machine (`lib.rs` 72–121). -/
def expandDefs (defs : List TransitionDef) : List Transition :=
  defs.flatMap fun d => d.transitions.flatMap (expandEntry d.initial_state)

/-! ### Dispatch compilation (`lib.rs` 126–216 and 345–357) -/

/-- A runtime input value: the event name and the tuple field values. -/
structure InVal where
  name : String
  args : List Int

/-- The guard gate of one generated match arm: absent guard passes; a present
guard is evaluated on the bound field values (`if (#guard_expr)(#params)`,
or `if #guard_expr` for a unit input). -/
def guardPasses (c : Transition) (input : InVal) : Bool :=
  match c.guard_expr with
  | none => true
  | some g => g.pred input.args

/-- Whether one generated arm `(State::S, Input::I(..)) if guard` matches:
source state equal, event name equal, guard gate passes. -/
def caseMatches (c : Transition) (state : String) (input : InVal) : Bool :=
  c.initial_state == state && c.input_value.name == input.name && guardPasses c input

/-- The generated `transition` function (`lib.rs` 345–350): a match over the
transition cases in declaration order ending in `_ => None`. -/
def transition : List Transition → String → InVal → Option String
  | [], _, _ => none
  | c :: rest, state, input =>
    if caseMatches c state input then some c.final_state
    else transition rest state input

/-- Result of one output arm: `Some(Self::Output::#ident)` for a constant,
`Some((#call_expr)(#params))` for a call expression. -/
def evalOutputSpec (spec : OutputSpec) (args : List Int) : OutVal :=
  match spec with
  | .constant id => .const id
  | .call f => f args

/-- The generated `output` function (`lib.rs` 182–216 and 352–357): arms are
pushed only for cases that carry an `OutputSpec`, each with the same state and
input pattern and the same guard gate as its transition arm, ending in
`_ => None`. -/
def output : List Transition → String → InVal → Option OutVal
  | [], _, _ => none
  | c :: rest, state, input =>
    match c.output with
    | none => output rest state input
    | some spec =>
      if caseMatches c state input then some (evalOutputSpec spec input.args)
      else output rest state input

/-- The case that decides `transition`: the first case in declaration order
whose source state and event name match and whose guard is absent or true. -/
def decidingCase (cases : List Transition) (state : String) (input : InVal) :
    Option Transition :=
  cases.find? fun c => caseMatches c state input

/-! ### Alphabet construction (`lib.rs` 123–129 and 218–227) -/

/-- `states : BTreeSet<&Ident>` — the initial state is inserted first, then
every case's source and target state (`lib.rs` 129, 218–219). -/
def statesAlphabet (initial_state : String) (cases : List Transition) : List String :=
  cases.foldl (fun s c => insertStr (insertStr s c.initial_state) c.final_state)
    (insertStr [] initial_state)

/-- One step of `inputs.entry(input_name).or_insert(&input_value.fields)`
(`lib.rs` 222) on the sorted association list modelling the `BTreeMap`:
a name already present keeps its first-seen field-type list. -/
def insertInput : List (String × List String) → String × List String →
    List (String × List String)
  | [], p => [p]
  | q :: qs, p =>
    if strLt p.1 q.1 then p :: q :: qs
    else if p.1 == q.1 then q :: qs
    else q :: insertInput qs p

/-- The generated `Input` alphabet: one entry per distinct event name, each
holding the field-type list of the name's first occurrence. -/
def inputAlphabet (cases : List Transition) : List (String × List String) :=
  cases.foldl (fun m c => insertInput m (c.input_value.name, c.input_value.fields)) []

/-- The constant-output identifier of a case, when its output is a constant
(`MatchCase::constant_output`, `match_case.rs` 55–60). -/
def constOut (c : Transition) : Option String :=
  match c.output with
  | some (OutputSpec.constant id) => some id
  | _ => none

/-- `outputs : BTreeSet<&Ident>` — only `Constant` outputs are collected
(`lib.rs` 224–227); `Call` outputs contribute nothing. -/
def outputAlphabet (cases : List Transition) : List String :=
  cases.foldl (fun s c => match constOut c with | some id => insertStr s id | none => s) []

/-- The field-type list attached to the first case using an event name. -/
def firstFields (cases : List Transition) (name : String) : Option (List String) :=
  (cases.find? fun c => c.input_value.name == name).map fun c => c.input_value.fields

/-! ### Parse-time validation and the whole `state_machine` macro -/

/-- The two surface syntaxes of one state block
(`parser/transition.rs` 72–127): the simple form always parses to exactly one
entry; the compact form to the brace-enclosed entry list. -/
inductive StateBlockSyntax where
  | regular (entry : TransitionEntry)
  | compact (entries : List TransitionEntry)

/-- The parsed surface of a `state_machine!` invocation: header data, optional
external type overrides, and the state blocks in declaration order. -/
structure RawSM where
  name : String
  initial_state : String
  input_type : Option String
  state_type : Option String
  output_type : Option String
  blocks : List (String × StateBlockSyntax)

/-- `TransitionDef::parse_transitions` (`parser/transition.rs` 113–127):
expands the block syntax and rejects an empty entry list. -/
def parse_transitions (initial_state : String) (b : StateBlockSyntax) :
    Except String (List TransitionEntry) :=
  let _ := initial_state
  let entries : List TransitionEntry :=
    match b with
    | .regular e => [e]
    | .compact es => es
  if entries.isEmpty then
    Except.error "No transitions provided for a compact representation"
  else Except.ok entries

/-- Sequential fallible map, as `syn`'s `parse_terminated` aborts at the first
entry whose parse fails. -/
def mapExcept : List α → (α → Except ε β) → Except ε (List β)
  | [], _ => Except.ok []
  | x :: xs, f =>
    match f x with
    | Except.error e => Except.error e
    | Except.ok y =>
      match mapExcept xs f with
      | Except.error e => Except.error e
      | Except.ok ys => Except.ok (y :: ys)

/-- Parsing the block list of a `StateMachineDef` (`parser.rs` 246–248). -/
def parseStateMachineDef (raw : RawSM) : Except String (List TransitionDef) :=
  mapExcept raw.blocks fun b =>
    match parse_transitions b.1 b.2 with
    | Except.error e => Except.error e
    | Except.ok entries => Except.ok { initial_state := b.1, transitions := entries }

/-- The compiled artifact: synthesized alphabets (`none` on an axis whose type
was supplied externally) and the flat transition-case table the two dispatch
functions scan. -/
structure Machine where
  name : String
  initial_state : String
  states : Option (List String)
  inputs : Option (List (String × List String))
  outputs : Option (List String)
  cases : List Transition

/-- The `state_machine` proc macro (`lib.rs` 55–366): parse, reject a machine
with zero transition definitions (`lib.rs` 61–66), expand guards, and build
the alphabets, skipping any axis with an external type override. -/
def state_machine (raw : RawSM) : Except String Machine :=
  match parseStateMachineDef raw with
  | Except.error e => Except.error e
  | Except.ok defs =>
    if defs.isEmpty then
      Except.error "rust-fsm: at least one state transition must be provided"
    else
      Except.ok
        { name := raw.name
          initial_state := raw.initial_state
          states :=
            match raw.state_type with
            | some _ => none
            | none => some (statesAlphabet raw.initial_state (expandDefs defs))
          inputs :=
            match raw.input_type with
            | some _ => none
            | none => some (inputAlphabet (expandDefs defs))
          outputs :=
            match raw.output_type with
            | some _ => none
            | none => some (outputAlphabet (expandDefs defs))
          cases := expandDefs defs }

/-- Whether an `Except` produced a value (compilation succeeded). -/
def exceptIsOk : Except ε α → Bool
  | Except.ok _ => true
  | Except.error _ => false

/-! ### Diagram rendering (`rust-fsm-dsl/src/diagram.rs`) -/

/-- `sanitize_expr` without the `pretty-print` feature: the guard's token text
with the Mermaid-breaking `:` characters removed (`diagram.rs` 41–45). -/
def sanitize_expr (text : String) : String := String.replace text ":" ""

/-- The synthesized choice-node label `<state>_guard_<input>`. -/
def choiceName (state input : String) : String := state ++ "_guard_" ++ input

/-- One emitted diagram line; each constructor corresponds to exactly one
`push_str`/`format!` site of `build_diagram`, carrying that site's arguments. -/
inductive DiagLine where
  | header (initial_state : String)
  | nestedOpen (state : String)
  | nestedEntry (input : String)
  | nestedToChoice (input choice : String)
  | nestedSelfLoop (input : String)
  | nestedClose
  | choiceDecl (choice : String)
  | stateToChoice (state choice : String)
  | choiceEdge (choice target label : String)
  | directEdge (state target input : String)
  | selfLoopEdge (state target label : String)
  | footer
deriving DecidableEq

/-- The text of each line, exactly as the corresponding `format!` writes it. -/
def renderLine : DiagLine → String
  | .header i => "///```mermaid\n///stateDiagram-v2\n///    [*] --> " ++ i ++ "\n"
  | .nestedOpen s => "///state " ++ s ++ " \x7b\n"
  | .nestedEntry i => "///    [*] --> " ++ i ++ "\n"
  | .nestedToChoice i c => "///    " ++ i ++ " --> " ++ c ++ "\n"
  | .nestedSelfLoop i => "///" ++ i ++ " --> [*]\n"
  | .nestedClose => "///\x7d\n"
  | .choiceDecl c => "///state " ++ c ++ " <<choice>>\n"
  | .stateToChoice s c => "///    " ++ s ++ " --> " ++ c ++ "\n"
  | .choiceEdge c t lbl => "///    " ++ c ++ " --> " ++ t ++ lbl ++ "\n"
  | .directEdge s t i => "///    " ++ s ++ " --> " ++ t ++ ": " ++ i ++ "\n"
  | .selfLoopEdge s t lbl => "///    " ++ s ++ " --> " ++ t ++ ": " ++ lbl ++ "\n"
  | .footer => "///```"

/-- The sorted key set of `transitions_per_state : BTreeMap<&Ident, Vec<_>>`. -/
def stateKeys (ts : List Transition) : List String :=
  ts.foldl (fun ks t => insertStr ks t.initial_state) []

/-- The sorted key set of
`transitions_by_state_input : BTreeMap<(&Ident, &Ident), Vec<_>>`. -/
def pairKeys (ts : List Transition) : List (String × String) :=
  ts.foldl (fun ks t => insertPair ks (t.initial_state, t.input_value.name)) []

/-- The per-state group: the state's transitions in declaration order. -/
def perState (ts : List Transition) (state : String) : List Transition :=
  ts.filter fun t => t.initial_state == state

/-- The per-(state, input) group in declaration order. -/
def transGroup (ts : List Transition) (state input : String) : List Transition :=
  ts.filter fun t => t.initial_state == state && t.input_value.name == input

/-- The sorted set of event names of a state's self-loop transitions
(`diagram.rs` 87–92). -/
def selfLoopInputs (ts : List Transition) (state : String) : List String :=
  (perState ts state).foldl
    (fun ks t => if t.final_state == state then insertStr ks t.input_value.name else ks) []

/-- A `(state, input)` pair gets a choice node when its group has at least one
guarded transition and more than one transition in total (`diagram.rs` 76–83). -/
def isChoice (ts : List Transition) (state input : String) : Bool :=
  ((transGroup ts state input).any fun t => t.guard_expr.isSome) &&
    decide (1 < (transGroup ts state input).length)

/-- The inner lines of a composite (nested) state block: one entry edge per
self-loop input, leading either to the input's choice node or back to `[*]`
(`diagram.rs` 99–115). -/
def nestedInner (ts : List Transition) (state : String) (inputs : List String) :
    List DiagLine :=
  inputs.flatMap fun inp =>
    DiagLine.nestedEntry inp ::
      (if isChoice ts state inp then [DiagLine.nestedToChoice inp (choiceName state inp)]
       else [DiagLine.nestedSelfLoop inp])

/-- The composite-node definitions: a state with two or more distinct
self-loop inputs is rendered as a nested block (`diagram.rs` 86–119). -/
def nestedSegment (ts : List Transition) : List DiagLine :=
  (stateKeys ts).flatMap fun s =>
    if 1 < (selfLoopInputs ts s).length then
      DiagLine.nestedOpen s :: (nestedInner ts s (selfLoopInputs ts s) ++ [DiagLine.nestedClose])
    else []

/-- The `state <name> <<choice>>` declarations (`diagram.rs` 121–128). -/
def choiceSegment (ts : List Transition) : List DiagLine :=
  (pairKeys ts).flatMap fun k =>
    if isChoice ts k.1 k.2 then [DiagLine.choiceDecl (choiceName k.1 k.2)] else []

/-- The label suffix of an edge out of a choice node: `:` followed by the
sanitized guard text for a guarded case, empty for an unguarded one
(`diagram.rs` 172–180). -/
def guardLabel (t : Transition) : String :=
  match t.guard_expr with
  | some g => ":" ++ sanitize_expr g.text
  | none => ""

/-- The label of a single (non-composite) self-loop edge: input name, field
types, and any constant output (`diagram.rs` 196–213). -/
def selfLoopLabel (t : Transition) : String :=
  t.input_value.name ++
    (if t.input_value.fields.isEmpty then ""
     else " (" ++ joinComma t.input_value.fields ++ ")") ++
    (match t.output with
     | some (OutputSpec.constant v) => " [" ++ v ++ "]"
     | _ => "")

/-- The per-state transition-edge loop (`diagram.rs` 143–216), carrying the
`processed_inputs` set so a choice group is emitted once at its first
occurrence. -/
def edgeLoop (ts : List Transition) (state : String) (isNested : Bool) :
    List Transition → List (String × String) → List DiagLine
  | [], _ => []
  | t :: rest, processed =>
    if (state, t.input_value.name) ∈ processed then
      edgeLoop ts state isNested rest processed
    else if isChoice ts state t.input_value.name then
      (if !isNested ||
          !((transGroup ts state t.input_value.name).any fun g => g.final_state == state) then
        [DiagLine.stateToChoice state (choiceName state t.input_value.name)]
      else []) ++
      (transGroup ts state t.input_value.name).map
        (fun g => DiagLine.choiceEdge (choiceName state t.input_value.name)
          g.final_state (guardLabel g)) ++
      edgeLoop ts state isNested rest ((state, t.input_value.name) :: processed)
    else if t.final_state != state then
      DiagLine.directEdge state t.final_state t.input_value.name ::
        edgeLoop ts state isNested rest ((state, t.input_value.name) :: processed)
    else if !isNested then
      DiagLine.selfLoopEdge state t.final_state (selfLoopLabel t) ::
        edgeLoop ts state isNested rest ((state, t.input_value.name) :: processed)
    else
      edgeLoop ts state isNested rest processed

/-- All transition edges, per source state in key order (`diagram.rs` 131–216). -/
def edgesSegment (ts : List Transition) : List DiagLine :=
  (stateKeys ts).flatMap fun s =>
    edgeLoop ts s (decide (1 < (selfLoopInputs ts s).length)) (perState ts s) []

/-- `build_diagram` (`diagram.rs` 48–229): header, composite-node blocks,
choice-node declarations, transition edges, closing fence. -/
def build_diagram (initial_state : String) (ts : List Transition) : List DiagLine :=
  DiagLine.header initial_state ::
    (nestedSegment ts ++ choiceSegment ts ++ edgesSegment ts ++ [DiagLine.footer])

/-- The final diagram text. -/
def renderDiagram (initial_state : String) (ts : List Transition) : String :=
  String.join ((build_diagram initial_state ts).map renderLine)

/-! ### The `nxt-fsm-dsl` snapshot (`nxt-fsm-dsl/src/*.rs`) -/

/-- `Event`: name and field types (`event.rs`). -/
structure NxtEvent where
  name : String
  fields : List String

/-- `SubTransition`: one arm of a `match` guard (`transition/sub_transition.rs`). -/
structure NxtSub where
  pattern : Pat
  next_state : String
  output : Option OutputSpec

/-- `TransitionMode`: a single transition with an optional `if`-guard closure,
or a `match` guard with bound names and sub-transitions (`transition.rs`). -/
inductive NxtMode where
  | single (guard : Option (List Int → Bool)) (next_state : String)
      (output : Option OutputSpec)
  | multiple (bindings : List String) (subs : List NxtSub)

/-- `Transition` (`transition.rs` 26–32): the parent state is attached later
by `StateDef::new`. -/
structure NxtTransition where
  parent_state : Option String
  event : NxtEvent
  mode : NxtMode

/-- The two surface syntaxes of one nxt state block
(`state_def.rs` 54–68): single transition, or `=> { … }` with any number of
entries. -/
inductive NxtBlock where
  | single (t : NxtTransition)
  | compact (ts : List NxtTransition)

/-- `StateDef`: a state and its transitions (`state_def.rs` 14–18). -/
structure NxtStateDef where
  state : String
  transitions : List NxtTransition

/-- `StateDef::new` (`state_def.rs` 21–25): attaches the parent state to every
transition. -/
def nxtStateDefNew (state : String) (ts : List NxtTransition) : NxtStateDef :=
  { state := state
    transitions := ts.map fun t => { t with parent_state := some state } }

/-- `StateDef::parse` (`state_def.rs` 54–68): the compact form parses the
brace-enclosed comma-separated transitions — with no emptiness check, so an
empty brace block parses successfully to a state with zero transitions. -/
def nxtStateDefParse (state : String) (b : NxtBlock) : Except String NxtStateDef :=
  match b with
  | .single t => Except.ok (nxtStateDefNew state [t])
  | .compact ts => Except.ok (nxtStateDefNew state ts)

/-- The parsed surface of a nxt `state_machine!` invocation. -/
structure NxtRaw where
  name : String
  initial_state : String
  blocks : List (String × NxtBlock)

/-- The nxt compiled artifact: the state definitions whose transitions are
rendered into the single combined `transition` match
(`state_machine_def.rs` 171–176). -/
structure NxtMachine where
  name : String
  initial_state : String
  states : List NxtStateDef

/-- The nxt `state_machine` macro (`nxt-fsm-dsl/src/lib.rs` 31–35 with
`StateMachineDef::parse`, `state_machine_def.rs` 97–125): parse every state
block in order — there is no emptiness check at any level — and emit the
machine. -/
def nxtStateMachine (raw : NxtRaw) : Except String NxtMachine :=
  match mapExcept raw.blocks (fun b => nxtStateDefParse b.1 b.2) with
  | Except.error e => Except.error e
  | Except.ok sds =>
    Except.ok { name := raw.name, initial_state := raw.initial_state, states := sds }

/-- The nxt generated combined `transition` function
(`state_machine_def.rs` 171–176, arms from `Transition::to_tokens`,
`transition.rs` 61–87): single-mode arms carry the guard in the arm pattern
and fall through on failure; multiple-mode arms commit to the inner pattern
match (an uncovered tuple, which in the generated Rust is a non-exhaustive
inner match, is modelled as `none`). -/
def nxtTransitionFn : List NxtTransition → String → InVal → Option (String × Option OutVal)
  | [], _, _ => none
  | t :: rest, state, input =>
    if t.parent_state == some state && t.event.name == input.name then
      match t.mode with
      | .single g next out =>
        if (match g with | none => true | some p => p input.args) then
          some (next, out.map fun o => evalOutputSpec o input.args)
        else nxtTransitionFn rest state input
      | .multiple _ subs =>
        (subs.find? fun sub => sub.pattern.matches input.args).map fun sub =>
          (sub.next_state, sub.output.map fun o => evalOutputSpec o input.args)
    else nxtTransitionFn rest state input

/-- The case table the nxt combined match scans: states in declaration order,
each contributing its transitions in order. -/
def nxtMachineCases (m : NxtMachine) : List NxtTransition :=
  m.states.flatMap fun sd => sd.transitions

/-! ### Concrete machines used to instantiate the theorems -/

/-- A guard closure `|x: &i32| 0 <= *x`. -/
def guardNonneg : GuardExpr :=
  { pred := fun args => decide (0 ≤ args.headI), text := "|x: &i32| 0 <= *x" }

/-- A guard closure `|x: &i32| *x == 5`, overlapping with `guardNonneg`. -/
def guardIsFive : GuardExpr :=
  { pred := fun args => args.headI == 5, text := "|x: &i32| *x == 5" }

/-- A guard closure `|x: &i32| 0 < *x`. -/
def guardPos : GuardExpr :=
  { pred := fun args => decide (0 < args.headI), text := "|x: &i32| 0 < *x" }

/-- Scenario D: two `if`-guarded cases on the same `(state, input)` with
overlapping conditions, preceded by a case on a different input name. -/
def scenDdefs : List TransitionDef :=
  [{ initial_state := "S"
     transitions :=
       [ TransitionEntry.ifGuard { name := "F", fields := ["i32"] } guardIsFive "T0" none
       , TransitionEntry.ifGuard { name := "E", fields := ["i32"] } guardNonneg "T1" none
       , TransitionEntry.ifGuard { name := "E", fields := ["i32"] } guardIsFive "T2" none ] }]

/-- Two unguarded cases on the same `(state, input)`: the first carries no
output, the second carries the constant output `Out`. -/
def overlapDefs : List TransitionDef :=
  [{ initial_state := "S"
     transitions :=
       [ TransitionEntry.simple { name := "E", fields := [] } "T1" none
       , TransitionEntry.simple { name := "E", fields := [] } "T2"
           (some (OutputSpec.constant "Out")) ] }]

/-- Two unguarded cases on the same `(state, input)`, both carrying outputs. -/
def overlapOutDefs : List TransitionDef :=
  [{ initial_state := "S"
     transitions :=
       [ TransitionEntry.simple { name := "E", fields := [] } "T1"
           (some (OutputSpec.constant "Early"))
       , TransitionEntry.simple { name := "E", fields := [] } "T2"
           (some (OutputSpec.constant "Late")) ] }]

/-- Scenario B: a `match` guard on `Retry(u32)` whose final arm is the
unconditional wildcard. -/
def retryArms : List MatchArm :=
  [ { pattern := Pat.scalars [SPat.intRange 0 (some 3)]
      final_state := "Processing", output := none }
  , { pattern := Pat.wild
      final_state := "Failed", output := some (OutputSpec.constant "MaxRetriesExceeded") } ]

/-- Scenario B machine definition. -/
def scenBdefs : List TransitionDef :=
  [{ initial_state := "Failed"
     transitions :=
       [TransitionEntry.matchGuard { name := "Retry", fields := ["u32"] } ["attempts"]
         retryArms] }]

/-- Scenario A: an unguarded cycle over `Open`, `Closed`, `Broken`. -/
def scenAdefs : List TransitionDef :=
  [ { initial_state := "Open"
      transitions :=
        [ TransitionEntry.simple { name := "Key", fields := [] } "Closed" none
        , TransitionEntry.simple { name := "Break", fields := [] } "Broken" none ] }
  , { initial_state := "Closed"
      transitions := [TransitionEntry.simple { name := "Key", fields := [] } "Open" none] } ]

/-- A raw machine whose second state block is an empty compact block. -/
def emptyBlockRaw : RawSM :=
  { name := "M", initial_state := "S"
    input_type := none, state_type := none, output_type := none
    blocks :=
      [ ("S", StateBlockSyntax.regular
          (TransitionEntry.simple { name := "E", fields := [] } "T" none))
      , ("Dead", StateBlockSyntax.compact []) ] }

/-- A nxt raw machine whose only state block is an empty compact block. -/
def nxtEmptyBlockRaw : NxtRaw :=
  { name := "M", initial_state := "S0", blocks := [("Dead", NxtBlock.compact [])] }

/-- A call-expression output. -/
def callZero : List Int → OutVal := fun _ => OutVal.val 0

/-- A machine mixing a constant output and a call output, with no external
type overrides. -/
def mixedOutRaw : RawSM :=
  { name := "M", initial_state := "S"
    input_type := none, state_type := none, output_type := none
    blocks :=
      [("S", StateBlockSyntax.compact
        [ TransitionEntry.simple { name := "E", fields := [] } "T"
            (some (OutputSpec.constant "Out"))
        , TransitionEntry.simple { name := "F", fields := [] } "T"
            (some (OutputSpec.call callZero)) ])] }

/-- The machine `state_machine` compiles `mixedOutRaw` to. -/
def mixedOutMachine : Machine :=
  { name := "M", initial_state := "S"
    states := some ["S", "T"]
    inputs := some [("E", []), ("F", [])]
    outputs := some ["Out"]
    cases :=
      [ { initial_state := "S", input_value := { name := "E", fields := [] }
          guard_expr := none, final_state := "T"
          output := some (OutputSpec.constant "Out") }
      , { initial_state := "S", input_value := { name := "F", fields := [] }
          guard_expr := none, final_state := "T"
          output := some (OutputSpec.call callZero) } ] }

/-- A `(state, input)` pair with exactly one guarded and one unguarded case. -/
def mixedGuardTs : List Transition :=
  expandDefs
    [{ initial_state := "S"
       transitions :=
         [ TransitionEntry.ifGuard { name := "E", fields := ["i32"] } guardPos "A" none
         , TransitionEntry.simple { name := "E", fields := ["i32"] } "B" none ] }]

/-- Two case lists containing the same states in different declaration order. -/
def permCasesA : List Transition :=
  [ { initial_state := "B", input_value := { name := "X", fields := [] }
      guard_expr := none, final_state := "A", output := none }
  , { initial_state := "C", input_value := { name := "Y", fields := [] }
      guard_expr := none, final_state := "A", output := none } ]

/-- `permCasesA` in the opposite declaration order. -/
def permCasesB : List Transition :=
  [ { initial_state := "C", input_value := { name := "Y", fields := [] }
      guard_expr := none, final_state := "A", output := none }
  , { initial_state := "B", input_value := { name := "X", fields := [] }
      guard_expr := none, final_state := "A", output := none } ]

/-- A raw machine with zero state blocks. -/
def noBlocksRaw : RawSM :=
  { name := "M", initial_state := "S"
    input_type := none, state_type := none, output_type := none
    blocks := [] }

/-- Two event declarations sharing the name `E` with different field-type
lists, the first one seen being `["i32"]`. -/
def arityDefs : List TransitionDef :=
  [ { initial_state := "S"
      transitions :=
        [ TransitionEntry.simple { name := "E", fields := ["i32"] } "T" none
        , TransitionEntry.simple { name := "E", fields := ["i32", "i32"] } "U" none
        , TransitionEntry.simple { name := "D", fields := [] } "T" none ] } ]

/-! ### Order lemmas for the `BTreeSet`/`BTreeMap` model -/

theorem strLtAux_cons_iff (x y : Char) (xs ys : List Char) :
    strLtAux (x :: xs) (y :: ys) = true ↔
      x.toNat < y.toNat ∨ (x.toNat = y.toNat ∧ strLtAux xs ys = true) := by
  simp only [strLtAux]
  by_cases h1 : x.toNat < y.toNat
  · simp [h1]
  · by_cases h2 : y.toNat < x.toNat
    · simp only [if_neg h1, if_pos h2]
      constructor
      · intro h; exact absurd h (by simp)
      · rintro (h | ⟨h, -⟩) <;> omega
    · have hxy : x.toNat = y.toNat := by omega
      simp [h1, h2, hxy]

theorem strLtAux_irrefl (l : List Char) : strLtAux l l = false := by
  induction l with
  | nil => rfl
  | cons a as ih => simp [strLtAux, ih]

theorem strLtAux_trans (a : List Char) :
    ∀ b c, strLtAux a b = true → strLtAux b c = true → strLtAux a c = true := by
  induction a with
  | nil =>
    intro b c hab hbc
    cases b with
    | nil => simp [strLtAux] at hab
    | cons y ys =>
      cases c with
      | nil => simp [strLtAux] at hbc
      | cons z zs => simp [strLtAux]
  | cons x xs ih =>
    intro b c hab hbc
    cases b with
    | nil => simp [strLtAux] at hab
    | cons y ys =>
      cases c with
      | nil => simp [strLtAux] at hbc
      | cons z zs =>
        rw [strLtAux_cons_iff] at hab hbc ⊢
        rcases hab with h1 | ⟨h1, h1'⟩ <;> rcases hbc with h2 | ⟨h2, h2'⟩
        · exact Or.inl (by omega)
        · exact Or.inl (by omega)
        · exact Or.inl (by omega)
        · exact Or.inr ⟨by omega, ih ys zs h1' h2'⟩

theorem strLtAux_eq_of_not (a : List Char) :
    ∀ b, strLtAux a b = false → strLtAux b a = false → a = b := by
  induction a with
  | nil =>
    intro b hab _
    cases b with
    | nil => rfl
    | cons y ys => simp [strLtAux] at hab
  | cons x xs ih =>
    intro b hab hba
    cases b with
    | nil => simp [strLtAux] at hba
    | cons y ys =>
      have hab' := hab
      rw [← Bool.not_eq_true, strLtAux_cons_iff] at hab hba
      push_neg at hab hba
      have hxy : x.toNat = y.toNat := by
        have h1 := hab.1
        have h2 := hba.1
        omega
      have hxs : strLtAux xs ys = false := by
        have := hab.2 hxy
        simpa using this
      have : x = y := Char.eq_of_val_eq (UInt32.ext hxy)
      subst this
      have hys : strLtAux ys xs = false := by
        have := hba.2 rfl
        simpa using this
      rw [ih ys hxs hys]

theorem strLt_irrefl (s : String) : strLt s s = false := strLtAux_irrefl s.data

theorem strLt_trans {a b c : String} (h1 : strLt a b = true) (h2 : strLt b c = true) :
    strLt a c = true :=
  strLtAux_trans a.data b.data c.data h1 h2

theorem strLt_asymm {a b : String} (h : strLt a b = true) : strLt b a = false := by
  by_contra h'
  have h'' : strLt b a = true := by simpa using h'
  have := strLt_trans h h''
  rw [strLt_irrefl] at this
  exact absurd this (by simp)

theorem strLt_eq_of_not {a b : String} (h1 : strLt a b = false) (h2 : strLt b a = false) :
    a = b := by
  have : a.data = b.data := strLtAux_eq_of_not a.data b.data h1 h2
  cases a; cases b; simp_all

theorem mem_insertStr {l : List String} {x y : String} :
    y ∈ insertStr l x ↔ y ∈ l ∨ y = x := by
  induction l with
  | nil => simp [insertStr]
  | cons a as ih =>
    simp only [insertStr]
    split
    · simp only [List.mem_cons]
      tauto
    · split
      · rename_i hne hbeq
        have hxa : x = a := by simpa using hbeq
        subst hxa
        simp only [List.mem_cons]
        tauto
      · simp only [List.mem_cons, ih]
        tauto

theorem pairwise_insertStr {l : List String} {x : String}
    (hl : l.Pairwise (fun a b => strLt a b = true)) :
    (insertStr l x).Pairwise (fun a b => strLt a b = true) := by
  induction l with
  | nil => simp [insertStr]
  | cons a as ih =>
    rcases List.pairwise_cons.mp hl with ⟨ha, has⟩
    simp only [insertStr]
    split
    · rename_i hx
      refine List.pairwise_cons.mpr ⟨?_, hl⟩
      intro b hb
      rcases List.mem_cons.mp hb with rfl | hb
      · exact hx
      · exact strLt_trans hx (ha b hb)
    · split
      · exact hl
      · rename_i hx hne
        refine List.pairwise_cons.mpr ⟨?_, ih has⟩
        intro b hb
        rcases mem_insertStr.mp hb with hb | hbx
        · exact ha b hb
        · rw [hbx]
          have hxa : strLt x a = false := by simpa using hx
          have hne' : x ≠ a := by simpa using hne
          by_contra hax
          have hax' : strLt a x = false := by simpa using hax
          exact hne' (strLt_eq_of_not hxa hax')

theorem sorted_ext (l₁ : List String) :
    ∀ l₂, l₁.Pairwise (fun a b => strLt a b = true) →
      l₂.Pairwise (fun a b => strLt a b = true) →
      (∀ x, x ∈ l₁ ↔ x ∈ l₂) → l₁ = l₂ := by
  induction l₁ with
  | nil =>
    intro l₂ _ _ hmem
    cases l₂ with
    | nil => rfl
    | cons b bs => simpa using (hmem b).mpr (List.mem_cons_self b bs)
  | cons a as ih =>
    intro l₂ h1 h2 hmem
    cases l₂ with
    | nil => simpa using (hmem a).mp (List.mem_cons_self a as)
    | cons b bs =>
      have hab : a = b := by
        rcases List.mem_cons.mp ((hmem a).mp (List.mem_cons_self a as)) with h | h
        · exact h
        · rcases List.mem_cons.mp ((hmem b).mpr (List.mem_cons_self b bs)) with h' | h'
          · exact h'.symm
          · have hba := (List.pairwise_cons.mp h1).1 b h'
            have hab' := (List.pairwise_cons.mp h2).1 a h
            rw [strLt_asymm hab'] at hba
            exact absurd hba (by simp)
      subst hab
      have hnotas : a ∉ as := by
        intro hmem'
        have := (List.pairwise_cons.mp h1).1 a hmem'
        rw [strLt_irrefl] at this
        exact absurd this (by simp)
      have hnotbs : a ∉ bs := by
        intro hmem'
        have := (List.pairwise_cons.mp h2).1 a hmem'
        rw [strLt_irrefl] at this
        exact absurd this (by simp)
      congr 1
      refine ih bs (List.pairwise_cons.mp h1).2 (List.pairwise_cons.mp h2).2 ?_
      intro x
      constructor
      · intro hx
        rcases List.mem_cons.mp ((hmem x).mp (List.mem_cons_of_mem a hx)) with rfl | h
        · exact absurd hx hnotas
        · exact h
      · intro hx
        rcases List.mem_cons.mp ((hmem x).mpr (List.mem_cons_of_mem a hx)) with rfl | h
        · exact absurd hx hnotbs
        · exact h

/-! ### Dispatch lemmas -/

theorem transition_eq_find (cases : List Transition) (state : String) (input : InVal) :
    transition cases state input = (decidingCase cases state input).map (·.final_state) := by
  induction cases with
  | nil => rfl
  | cons c rest ih =>
    simp only [decidingCase] at ih ⊢
    cases h : caseMatches c state input <;> simp [transition, List.find?, h, ih]

theorem find?_first_of_earlier_false {α : Type} (p : α → Bool) (l : List α) :
    ∀ (j : Nat) (c : α), l[j]? = some c → p c = true →
      (∀ k, k < j → ∀ c', l[k]? = some c' → p c' = false) → l.find? p = some c := by
  induction l with
  | nil => intro j c hj; simp at hj
  | cons a as ih =>
    intro j c hj hc hearlier
    cases j with
    | zero =>
      have : a = c := by simpa using hj
      subst this
      exact List.find?_cons_of_pos _ hc
    | succ k =>
      have ha : p a = false := hearlier 0 (Nat.succ_pos k) a (by simp)
      rw [List.find?_cons_of_neg _ (by simp [ha])]
      refine ih k c (by simpa using hj) hc ?_
      intro k' hk' c' hk'c
      exact hearlier (k' + 1) (Nat.succ_lt_succ hk') c' (by simpa using hk'c)

theorem output_eq_filtered_find (cases : List Transition) (state : String) (input : InVal) :
    output cases state input =
      ((cases.filter fun c => c.output.isSome).find? fun c => caseMatches c state input).bind
        (fun c => c.output.map fun spec => evalOutputSpec spec input.args) := by
  induction cases with
  | nil => rfl
  | cons c rest ih =>
    cases hco : c.output with
    | none =>
      simp only [output, hco]
      rw [List.filter_cons_of_neg (by simp [hco])]
      exact ih
    | some spec =>
      simp only [output, hco]
      rw [List.filter_cons_of_pos (by simp [hco])]
      cases h : caseMatches c state input
      · simp only [List.find?, h]
        simp [h, ih]
      · simp [List.find?, h, hco]

theorem output_of_decidingCase_some (cases : List Transition) (state : String) (input : InVal)
    (c : Transition) (hdec : decidingCase cases state input = some c)
    (hout : c.output.isSome = true) :
    output cases state input = c.output.map fun spec => evalOutputSpec spec input.args := by
  induction cases with
  | nil => simp [decidingCase] at hdec
  | cons a rest ih =>
    cases h : caseMatches a state input
    · have hdec' : decidingCase rest state input = some c := by
        simp only [decidingCase, List.find?, h] at hdec ⊢
        exact hdec
      have hrest := ih hdec'
      cases hco : a.output with
      | none => simp only [output, hco]; exact hrest
      | some spec => simp only [output, hco]; rw [if_neg (by simp [h])]; exact hrest
    · have hac : a = c := by
        simp only [decidingCase, List.find?, h, Option.some.injEq] at hdec
        exact hdec
      subst hac
      cases hco : a.output with
      | none => rw [hco] at hout; simp at hout
      | some spec =>
        simp only [output, hco]
        rw [if_pos h]
        simp [hco]

/-! ### Membership and sortedness of the alphabet folds -/

theorem mem_statesFold (cases : List Transition) :
    ∀ (acc : List String) (n : String),
      n ∈ cases.foldl (fun s c => insertStr (insertStr s c.initial_state) c.final_state) acc ↔
        n ∈ acc ∨ ∃ c ∈ cases, n = c.initial_state ∨ n = c.final_state := by
  induction cases with
  | nil => intro acc n; simp
  | cons c rest ih =>
    intro acc n
    simp only [List.foldl_cons]
    rw [ih]
    simp only [mem_insertStr, List.mem_cons]
    constructor
    · rintro (((h | h) | h) | ⟨c', hc', h⟩)
      · exact Or.inl h
      · exact Or.inr ⟨c, Or.inl rfl, Or.inl h⟩
      · exact Or.inr ⟨c, Or.inl rfl, Or.inr h⟩
      · exact Or.inr ⟨c', Or.inr hc', h⟩
    · rintro (h | ⟨c', hc' | hc', h⟩)
      · exact Or.inl (Or.inl (Or.inl h))
      · subst hc'
        rcases h with h | h
        · exact Or.inl (Or.inl (Or.inr h))
        · exact Or.inl (Or.inr h)
      · exact Or.inr ⟨c', hc', h⟩

theorem pairwise_statesFold (cases : List Transition) :
    ∀ acc, acc.Pairwise (fun a b => strLt a b = true) →
      (cases.foldl (fun s c => insertStr (insertStr s c.initial_state) c.final_state)
        acc).Pairwise (fun a b => strLt a b = true) := by
  induction cases with
  | nil => intro acc h; exact h
  | cons c rest ih =>
    intro acc h
    exact ih _ (pairwise_insertStr (pairwise_insertStr h))

theorem mem_statesAlphabet (initial_state : String) (cases : List Transition) (n : String) :
    n ∈ statesAlphabet initial_state cases ↔
      n = initial_state ∨ ∃ c ∈ cases, n = c.initial_state ∨ n = c.final_state := by
  rw [statesAlphabet, mem_statesFold]
  simp [mem_insertStr]

theorem mem_outputsFold (cases : List Transition) :
    ∀ (acc : List String) (n : String),
      n ∈ cases.foldl
          (fun s c => match constOut c with | some id => insertStr s id | none => s) acc ↔
        n ∈ acc ∨ ∃ c ∈ cases, constOut c = some n := by
  induction cases with
  | nil => intro acc n; simp
  | cons c rest ih =>
    intro acc n
    simp only [List.foldl_cons]
    cases hco : constOut c with
    | none =>
      rw [ih]
      simp [hco]
    | some id =>
      rw [ih]
      simp only [mem_insertStr, List.mem_cons, hco]
      constructor
      · rintro ((h | h) | ⟨c', hc', h⟩)
        · exact Or.inl h
        · exact Or.inr ⟨c, Or.inl rfl, by rw [h]; exact hco⟩
        · exact Or.inr ⟨c', Or.inr hc', h⟩
      · rintro (h | ⟨c', hc' | hc', h⟩)
        · exact Or.inl (Or.inl h)
        · subst hc'
          rw [hco] at h
          have hidn : id = n := by simpa using h
          exact Or.inl (Or.inr hidn.symm)
        · exact Or.inr ⟨c', hc', h⟩

theorem mem_outputAlphabet (cases : List Transition) (n : String) :
    n ∈ outputAlphabet cases ↔ ∃ c ∈ cases, constOut c = some n := by
  rw [outputAlphabet, mem_outputsFold]
  simp

theorem constOut_eq_some_iff (c : Transition) (x : String) :
    constOut c = some x ↔ c.output = some (OutputSpec.constant x) := by
  cases hco : c.output with
  | none => simp [constOut, hco]
  | some spec =>
    cases spec with
    | constant id => simp [constOut, hco]
    | call f => simp [constOut, hco]

theorem mem_insertPair {l : List (String × String)} {p q : String × String} :
    q ∈ insertPair l p ↔ q ∈ l ∨ q = p := by
  induction l with
  | nil => simp [insertPair]
  | cons a as ih =>
    simp only [insertPair]
    split
    · simp only [List.mem_cons]
      tauto
    · split
      · rename_i hlt heq
        subst heq
        simp only [List.mem_cons]
        tauto
      · simp only [List.mem_cons, ih]
        tauto

theorem mem_insertInputKeys {m : List (String × List String)} {p : String × List String}
    {k : String} :
    k ∈ (insertInput m p).map Prod.fst ↔ k ∈ m.map Prod.fst ∨ k = p.1 := by
  induction m with
  | nil => simp [insertInput]
  | cons a as ih =>
    simp only [insertInput]
    split
    · simp only [List.map_cons, List.mem_cons]
      tauto
    · split
      · rename_i hlt hbeq
        have heq : p.1 = a.1 := by simpa using hbeq
        simp only [List.map_cons, List.mem_cons]
        constructor
        · tauto
        · rintro ((h | h) | h)
          · exact Or.inl h
          · exact Or.inr h
          · exact Or.inl (by rw [h, heq])
      · simp only [List.map_cons, List.mem_cons, ih]
        tauto

theorem pairwise_keys_insertInput {m : List (String × List String)}
    {p : String × List String}
    (hm : (m.map Prod.fst).Pairwise (fun a b => strLt a b = true)) :
    ((insertInput m p).map Prod.fst).Pairwise (fun a b => strLt a b = true) := by
  induction m with
  | nil => simp [insertInput]
  | cons a as ih =>
    simp only [List.map_cons] at hm
    rcases List.pairwise_cons.mp hm with ⟨ha, has⟩
    simp only [insertInput]
    split
    · rename_i hlt
      simp only [List.map_cons]
      refine List.pairwise_cons.mpr ⟨?_, List.pairwise_cons.mpr ⟨ha, has⟩⟩
      intro b hb
      simp only [List.mem_cons] at hb
      rcases hb with rfl | hb'
      · exact hlt
      · exact strLt_trans hlt (ha b hb')
    · split
      · simpa using hm
      · rename_i hnlt hnbeq
        simp only [List.map_cons]
        refine List.pairwise_cons.mpr ⟨?_, ih has⟩
        intro b hb
        rcases mem_insertInputKeys.mp hb with hb' | hbp
        · exact ha b hb'
        · rw [hbp]
          have h1 : strLt p.1 a.1 = false := by simpa using hnlt
          have hne' : p.1 ≠ a.1 := by simpa using hnbeq
          by_contra hax
          have h2 : strLt a.1 p.1 = false := by simpa using hax
          exact hne' (strLt_eq_of_not h1 h2)

theorem mem_insertInput {m : List (String × List String)} {p q : String × List String}
    (hm : (m.map Prod.fst).Pairwise (fun a b => strLt a b = true)) :
    q ∈ insertInput m p ↔ q ∈ m ∨ (q = p ∧ p.1 ∉ m.map Prod.fst) := by
  induction m with
  | nil => simp [insertInput]
  | cons a as ih =>
    simp only [List.map_cons] at hm
    rcases List.pairwise_cons.mp hm with ⟨ha, has⟩
    simp only [insertInput]
    split
    · rename_i hlt
      have hnotin : p.1 ∉ (a :: as).map Prod.fst := by
        intro hmem
        simp only [List.map_cons, List.mem_cons] at hmem
        rcases hmem with h | h
        · rw [h] at hlt
          rw [strLt_irrefl] at hlt
          exact absurd hlt (by simp)
        · have := ha p.1 h
          rw [strLt_asymm this] at hlt
          exact absurd hlt (by simp)
      simp only [List.mem_cons, hnotin]
      tauto
    · split
      · rename_i hnlt hbeq
        have heq : p.1 = a.1 := by simpa using hbeq
        have hin : p.1 ∈ (a :: as).map Prod.fst := by simp [heq]
        simp only [List.mem_cons, hin]
        tauto
      · rename_i hnlt hnbeq
        have hne : p.1 ≠ a.1 := by simpa using hnbeq
        simp only [List.mem_cons, ih has]
        have hkeys : (p.1 ∉ (a :: as).map Prod.fst) ↔ p.1 ∉ as.map Prod.fst := by
          simp [hne]
        rw [← hkeys]
        tauto

theorem mem_inputFold (cases : List Transition) :
    ∀ (acc : List (String × List String)),
      (acc.map Prod.fst).Pairwise (fun a b => strLt a b = true) →
      ∀ (n : String) (fs : List String),
        ((n, fs) ∈
          cases.foldl
            (fun m c => insertInput m (c.input_value.name, c.input_value.fields)) acc ↔
          (n, fs) ∈ acc ∨ (n ∉ acc.map Prod.fst ∧ firstFields cases n = some fs)) := by
  induction cases with
  | nil => intro acc _ n fs; simp [firstFields]
  | cons c rest ih =>
    intro acc hacc n fs
    simp only [List.foldl_cons]
    rw [ih _ (pairwise_keys_insertInput hacc)]
    cases hn : c.input_value.name == n
    · have hff : firstFields (c :: rest) n = firstFields rest n := by
        simp only [firstFields, List.find?, hn]
      rw [hff, mem_insertInput hacc]
      have hne : n ≠ c.input_value.name := by
        intro h
        rw [h] at hn
        simp at hn
      have hkeys : n ∉ (insertInput acc (c.input_value.name, c.input_value.fields)).map
          Prod.fst ↔ n ∉ acc.map Prod.fst := by
        rw [not_iff_not]
        simp only [mem_insertInputKeys]
        simp [hne]
      rw [hkeys]
      have hneq : ¬((n, fs) = (c.input_value.name, c.input_value.fields)) := by
        intro h
        exact hne (congrArg Prod.fst h)
      tauto
    · have heqn : c.input_value.name = n := by simpa using hn
      have hff : firstFields (c :: rest) n = some c.input_value.fields := by
        simp only [firstFields, List.find?, hn, Option.map_some']
      rw [hff, mem_insertInput hacc]
      have hkeys : n ∈ (insertInput acc (c.input_value.name, c.input_value.fields)).map
          Prod.fst := by
        rw [mem_insertInputKeys]
        exact Or.inr heqn.symm
      constructor
      · rintro ((h | ⟨hqp, hnotin⟩) | ⟨hnotin, hfs⟩)
        · exact Or.inl h
        · have hn2 : n = c.input_value.name := congrArg Prod.fst hqp
          have hf2 : fs = c.input_value.fields := congrArg Prod.snd hqp
          refine Or.inr ⟨?_, by rw [hf2]⟩
          rw [hn2]
          exact hnotin
        · exact absurd hkeys hnotin
      · rintro (h | ⟨hnotin, hfs⟩)
        · exact Or.inl (Or.inl h)
        · have hfs' : fs = c.input_value.fields := by
            have h2 := hfs.symm
            simpa using h2
          refine Or.inl (Or.inr ⟨?_, ?_⟩)
          · rw [heqn, hfs']
          · show c.input_value.name ∉ acc.map Prod.fst
            rw [heqn]
            exact hnotin

theorem pairwise_inputFold (cases : List Transition) :
    ∀ acc, (acc.map Prod.fst).Pairwise (fun a b => strLt a b = true) →
      ((cases.foldl
          (fun m c => insertInput m (c.input_value.name, c.input_value.fields)) acc).map
        Prod.fst).Pairwise (fun a b => strLt a b = true) := by
  induction cases with
  | nil => intro acc h; exact h
  | cons c rest ih =>
    intro acc h
    exact ih _ (pairwise_keys_insertInput h)

theorem mem_inputAlphabet (cases : List Transition) (n : String) (fs : List String) :
    (n, fs) ∈ inputAlphabet cases ↔ firstFields cases n = some fs := by
  rw [inputAlphabet, mem_inputFold cases [] (by simp)]
  simp

theorem pairwise_inputAlphabet (cases : List Transition) :
    ((inputAlphabet cases).map Prod.fst).Pairwise (fun a b => strLt a b = true) :=
  pairwise_inputFold cases [] (by simp)

theorem mapExcept_not_ok {α β ε : Type} {l : List α} {f : α → Except ε β}
    (h : ∃ x ∈ l, exceptIsOk (f x) = false) : exceptIsOk (mapExcept l f) = false := by
  induction l with
  | nil => simp at h
  | cons a as ih =>
    rcases h with ⟨x, hx, hfx⟩
    rcases List.mem_cons.mp hx with rfl | hx'
    · simp only [mapExcept]
      cases hfa : f x with
      | error e => simp [exceptIsOk]
      | ok y => rw [hfa] at hfx; simp [exceptIsOk] at hfx
    · simp only [mapExcept]
      cases hfa : f a with
      | error e => simp [exceptIsOk]
      | ok y =>
        have hrec := ih ⟨x, hx', hfx⟩
        cases hm : mapExcept as f with
        | error e => simp [exceptIsOk]
        | ok ys => rw [hm] at hrec; simp [exceptIsOk] at hrec

theorem mem_stateKeysFold (ts : List Transition) :
    ∀ (acc : List String) (n : String),
      n ∈ ts.foldl (fun ks t => insertStr ks t.initial_state) acc ↔
        n ∈ acc ∨ ∃ t ∈ ts, n = t.initial_state := by
  induction ts with
  | nil => intro acc n; simp
  | cons t rest ih =>
    intro acc n
    simp only [List.foldl_cons]
    rw [ih]
    simp only [mem_insertStr, List.mem_cons]
    constructor
    · rintro ((h | h) | ⟨t', ht', h⟩)
      · exact Or.inl h
      · exact Or.inr ⟨t, Or.inl rfl, h⟩
      · exact Or.inr ⟨t', Or.inr ht', h⟩
    · rintro (h | ⟨t', ht' | ht', h⟩)
      · exact Or.inl (Or.inl h)
      · subst ht'; exact Or.inl (Or.inr h)
      · exact Or.inr ⟨t', ht', h⟩

theorem mem_stateKeys (ts : List Transition) (n : String) :
    n ∈ stateKeys ts ↔ ∃ t ∈ ts, n = t.initial_state := by
  rw [stateKeys, mem_stateKeysFold]
  simp

theorem mem_pairKeysFold (ts : List Transition) :
    ∀ (acc : List (String × String)) (k : String × String),
      k ∈ ts.foldl (fun ks t => insertPair ks (t.initial_state, t.input_value.name)) acc ↔
        k ∈ acc ∨ ∃ t ∈ ts, k = (t.initial_state, t.input_value.name) := by
  induction ts with
  | nil => intro acc k; simp
  | cons t rest ih =>
    intro acc k
    simp only [List.foldl_cons]
    rw [ih]
    simp only [mem_insertPair, List.mem_cons]
    constructor
    · rintro ((h | h) | ⟨t', ht', h⟩)
      · exact Or.inl h
      · exact Or.inr ⟨t, Or.inl rfl, h⟩
      · exact Or.inr ⟨t', Or.inr ht', h⟩
    · rintro (h | ⟨t', ht' | ht', h⟩)
      · exact Or.inl (Or.inl h)
      · subst ht'; exact Or.inl (Or.inr h)
      · exact Or.inr ⟨t', ht', h⟩

theorem mem_pairKeys (ts : List Transition) (k : String × String) :
    k ∈ pairKeys ts ↔ ∃ t ∈ ts, k = (t.initial_state, t.input_value.name) := by
  rw [pairKeys, mem_pairKeysFold]
  simp

theorem mem_selfLoopFold (state : String) (l : List Transition) :
    ∀ (acc : List String) (n : String),
      n ∈ l.foldl
          (fun ks t =>
            if t.final_state == state then insertStr ks t.input_value.name else ks) acc ↔
        n ∈ acc ∨ ∃ t ∈ l, t.final_state = state ∧ n = t.input_value.name := by
  induction l with
  | nil => intro acc n; simp
  | cons t rest ih =>
    intro acc n
    simp only [List.foldl_cons]
    cases hfin : t.final_state == state
    · rw [if_neg (by simp [hfin]), ih]
      have : t.final_state ≠ state := by simpa using hfin
      simp only [List.mem_cons]
      constructor
      · rintro (h | ⟨t', ht', h⟩)
        · exact Or.inl h
        · exact Or.inr ⟨t', Or.inr ht', h⟩
      · rintro (h | ⟨t', ht' | ht', h⟩)
        · exact Or.inl h
        · subst ht'; exact absurd h.1 this
        · exact Or.inr ⟨t', ht', h⟩
    · rw [if_pos (by simp [hfin]), ih]
      have heq : t.final_state = state := by simpa using hfin
      simp only [mem_insertStr, List.mem_cons]
      constructor
      · rintro ((h | h) | ⟨t', ht', h⟩)
        · exact Or.inl h
        · exact Or.inr ⟨t, Or.inl rfl, heq, h⟩
        · exact Or.inr ⟨t', Or.inr ht', h⟩
      · rintro (h | ⟨t', ht' | ht', h⟩)
        · exact Or.inl (Or.inl h)
        · subst ht'; exact Or.inl (Or.inr h.2)
        · exact Or.inr ⟨t', ht', h⟩

theorem mem_selfLoopInputs (ts : List Transition) (state n : String) :
    n ∈ selfLoopInputs ts state ↔
      ∃ t ∈ ts, t.initial_state = state ∧ t.final_state = state ∧
        n = t.input_value.name := by
  rw [selfLoopInputs, mem_selfLoopFold]
  simp only [List.mem_nil_iff, false_or, perState]
  constructor
  · rintro ⟨t, ht, hfin, hn⟩
    rcases List.mem_filter.mp ht with ⟨hmem, hinit⟩
    exact ⟨t, hmem, by simpa using hinit, hfin, hn⟩
  · rintro ⟨t, hmem, hinit, hfin, hn⟩
    exact ⟨t, List.mem_filter.mpr ⟨hmem, by simpa using hinit⟩, hfin, hn⟩

/-! ### Claim theorems -/

/-- Claim C1 (first-match-wins): for every compiled machine (every expanded
transition-case list) and every (state, input), if the case at position `j` in
declaration order is a candidate (equal source state and event name) whose
guard is absent or evaluates true on the input's bound field values, and no
earlier case is such a candidate with a passing guard, then
`transition(state, input)` is that case's target state — never a later
candidate's, regardless of which guard condition is more specific. -/
theorem first_match_wins (defs : List TransitionDef) (state : String) (input : InVal)
    (j : Nat) (c : Transition)
    (hj : (expandDefs defs)[j]? = some c)
    (hstate : c.initial_state = state) (hname : c.input_value.name = input.name)
    (hguard : guardPasses c input = true)
    (hearlier : ∀ k, k < j → ∀ c', (expandDefs defs)[k]? = some c' →
      ¬(c'.initial_state = state ∧ c'.input_value.name = input.name ∧
        guardPasses c' input = true)) :
    transition (expandDefs defs) state input = some c.final_state := by
  rw [transition_eq_find]
  have hc : caseMatches c state input = true := by
    simp [caseMatches, hstate, hname, hguard]
  have hdec : decidingCase (expandDefs defs) state input = some c := by
    unfold decidingCase
    refine find?_first_of_earlier_false _ _ j c hj hc ?_
    intro k hk c' hkc
    by_contra hmatch
    have hm : caseMatches c' state input = true := by simpa using hmatch
    simp only [caseMatches, Bool.and_eq_true, beq_iff_eq] at hm
    exact hearlier k hk c' hkc ⟨hm.1.1, hm.1.2, hm.2⟩
  rw [hdec]
  rfl

/-- Witness for C1 at Scenario D: both overlapping guards are true at input
value 5, an earlier case on a different event name does not match, and the
result is the first declared target `T1`. -/
theorem first_match_wins_witness :
    transition (expandDefs scenDdefs) "S" { name := "E", args := [5] } = some "T1" :=
  first_match_wins scenDdefs "S" { name := "E", args := [5] } 1
    { initial_state := "S", input_value := { name := "E", fields := ["i32"] }
      guard_expr := some guardNonneg, final_state := "T1", output := none }
    rfl rfl rfl (by decide)
    (by
      intro k hk c' hkc
      have hk0 : k = 0 := by omega
      subst hk0
      have h0 : (expandDefs scenDdefs)[0]? =
          some { initial_state := "S", input_value := { name := "F", fields := ["i32"] }
                 guard_expr := some guardIsFive, final_state := "T0", output := none } := rfl
      rw [h0] at hkc
      injection hkc with hkc'
      subst hkc'
      decide)

/-- Claim C2 as stated is false on the code: in `overlapDefs`, at
`(S, E)`, the first matching case decides the transition (to `T1`) and carries
no OutputSpec, yet `output` is `Some Out` — produced by the later matching
case, because the generated `output` match only contains arms for cases that
carry an OutputSpec. -/
theorem output_gate_counterexample :
    decidingCase (expandDefs overlapDefs) "S" { name := "E", args := [] } =
      some { initial_state := "S", input_value := { name := "E", fields := [] }
             guard_expr := none, final_state := "T1", output := none } ∧
    transition (expandDefs overlapDefs) "S" { name := "E", args := [] } = some "T1" ∧
    output (expandDefs overlapDefs) "S" { name := "E", args := [] } =
      some (OutVal.const "Out") :=
  ⟨rfl, rfl, rfl⟩

/-- Claim C2 amended: `transition` is decided by the first matching case;
`output` is decided by the first matching case that carries an OutputSpec
(under the same guard gate).  Hence whenever the transition-deciding case
carries an OutputSpec the two functions are decided by the identical case and
`output` is that case's output — but when it does not, `output` may still be
`Some`, from a later matching output-carrying case. -/
theorem output_same_gate_amended (cases : List Transition) (state : String)
    (input : InVal) :
    transition cases state input = (decidingCase cases state input).map (·.final_state) ∧
    (∀ c, decidingCase cases state input = some c → c.output.isSome = true →
      output cases state input = c.output.map fun spec => evalOutputSpec spec input.args) ∧
    output cases state input =
      ((cases.filter fun c => c.output.isSome).find? fun c => caseMatches c state input).bind
        (fun c => c.output.map fun spec => evalOutputSpec spec input.args) :=
  ⟨transition_eq_find cases state input,
   fun c hdec hout => output_of_decidingCase_some cases state input c hdec hout,
   output_eq_filtered_find cases state input⟩

/-- Witness for the amended C2: when the first matching case carries an
OutputSpec, `output` returns exactly that case's output. -/
theorem output_same_gate_witness :
    output (expandDefs overlapOutDefs) "S" { name := "E", args := [] } =
      some (OutVal.const "Early") := by
  have h := (output_same_gate_amended (expandDefs overlapOutDefs) "S"
    { name := "E", args := [] }).2.1
    { initial_state := "S", input_value := { name := "E", fields := [] }
      guard_expr := none, final_state := "T1",
      output := some (OutputSpec.constant "Early") }
    rfl rfl
  simpa [evalOutputSpec] using h

/-- Claim C3 (catch-all totality): a Binding (match) guard expands into one
TransitionCase per arm in arm order; the generated predicate of an
unconditional-wildcard arm evaluates true on every tuple of field values
(hence in particular whenever every earlier arm's pattern fails); and when
such an arm is the final arm, `transition` never returns `none` on that
`(state, input)` pair, for any field values. -/
theorem catch_all_totality (defs : List TransitionDef) (d : TransitionDef)
    (input : InputVariant) (bindings : List String) (arms : List MatchArm)
    (lastArm : MatchArm)
    (hd : d ∈ defs)
    (he : TransitionEntry.matchGuard input bindings arms ∈ d.transitions)
    (hlast : arms.getLast? = some lastArm)
    (hwild : lastArm.pattern = Pat.wild) :
    (expandEntry d.initial_state (TransitionEntry.matchGuard input bindings arms)).length
        = arms.length ∧
    (∀ args, (guard_expr_for_arm bindings input.fields lastArm).pred args = true) ∧
    (∀ args, (transition (expandDefs defs) d.initial_state
        { name := input.name, args := args }).isSome = true) := by
  refine ⟨by simp [expandEntry], ?_, ?_⟩
  · intro args
    simp [guard_expr_for_arm, hwild, Pat.matches]
  · intro args
    rw [transition_eq_find]
    have hmem : Transition.mk d.initial_state input
        (some (guard_expr_for_arm bindings input.fields lastArm))
        lastArm.final_state lastArm.output ∈ expandDefs defs := by
      rw [expandDefs, List.mem_flatMap]
      refine ⟨d, hd, ?_⟩
      rw [List.mem_flatMap]
      refine ⟨TransitionEntry.matchGuard input bindings arms, he, ?_⟩
      simp only [expandEntry, List.mem_map]
      exact ⟨lastArm, List.mem_of_mem_getLast? hlast, rfl⟩
    have hfind : (decidingCase (expandDefs defs) d.initial_state
        { name := input.name, args := args }).isSome = true := by
      rw [decidingCase, List.find?_isSome]
      refine ⟨_, hmem, ?_⟩
      simp [caseMatches, guardPasses, guard_expr_for_arm, hwild, Pat.matches]
    cases hfd : decidingCase (expandDefs defs) d.initial_state
        { name := input.name, args := args } with
    | none => rw [hfd] at hfind; simp at hfind
    | some c => simp

/-- Witness for C3 at Scenario B: the wildcard catch-all makes
`(Failed, Retry)` total, e.g. at field value 7. -/
theorem catch_all_totality_witness :
    (transition (expandDefs scenBdefs) "Failed"
      { name := "Retry", args := [7] }).isSome = true :=
  (catch_all_totality scenBdefs
    { initial_state := "Failed"
      transitions :=
        [TransitionEntry.matchGuard { name := "Retry", fields := ["u32"] } ["attempts"]
          retryArms] }
    { name := "Retry", fields := ["u32"] } ["attempts"] retryArms
    { pattern := Pat.wild, final_state := "Failed"
      output := some (OutputSpec.constant "MaxRetriesExceeded") }
    (List.mem_singleton.mpr rfl) (List.mem_singleton.mpr rfl) rfl rfl).2.2 [7]

/-- Claim C4: when no TransitionCase matches (no case with equal source state
and event name whose guard is absent or true on the bound field values), both
generated functions return `None`. -/
theorem no_match_returns_none (defs : List TransitionDef) (state : String) (input : InVal)
    (h : ∀ c ∈ expandDefs defs, caseMatches c state input = false) :
    transition (expandDefs defs) state input = none ∧
    output (expandDefs defs) state input = none := by
  constructor
  · rw [transition_eq_find, decidingCase,
      List.find?_eq_none.mpr (fun x hx => by simp [h x hx])]
    rfl
  · rw [output_eq_filtered_find,
      List.find?_eq_none.mpr
        (fun x hx => by simp [h x (List.mem_of_mem_filter hx)])]
    rfl

/-- Witness for C4 at Scenario A: `transition(Broken, Key) = None` and no
output is produced. -/
theorem no_match_returns_none_witness :
    transition (expandDefs scenAdefs) "Broken" { name := "Key", args := [] } = none ∧
    output (expandDefs scenAdefs) "Broken" { name := "Key", args := [] } = none :=
  no_match_returns_none scenAdefs "Broken" { name := "Key", args := [] } (by decide)

/-- Claim C5 amended (the rust-fsm-dsl pipeline): a compact state block that
expands to zero TransitionCases is a fatal parse error — `parse_transitions`
rejects it and the whole `state_machine` invocation produces no machine.
(The nxt-fsm-dsl snapshot imposes no such check; see the counterexample.) -/
theorem empty_compact_block_is_error (raw : RawSM) (s : String)
    (hmem : (s, StateBlockSyntax.compact []) ∈ raw.blocks) :
    exceptIsOk (state_machine raw) = false := by
  have hparse : exceptIsOk (parseStateMachineDef raw) = false := by
    apply mapExcept_not_ok
    exact ⟨(s, StateBlockSyntax.compact []), hmem, rfl⟩
  unfold state_machine
  cases hp : parseStateMachineDef raw with
  | error e => rfl
  | ok defs => rw [hp] at hparse; simp [exceptIsOk] at hparse

/-- Witness for the amended C5: a machine containing the empty compact block
`Dead => { }` fails to compile in the rust-fsm-dsl pipeline. -/
theorem empty_compact_block_is_error_witness :
    exceptIsOk (state_machine emptyBlockRaw) = false :=
  empty_compact_block_is_error emptyBlockRaw "Dead"
    (List.mem_cons_of_mem _ (List.mem_cons_self _ _))

/-- Claim C5 counterexample: the nxt-fsm-dsl snapshot's `StateDef::parse`
performs no emptiness check, so a machine whose only state block is the empty
compact block `Dead => { }` compiles successfully and a machine is produced —
contradicting the claim that this holds for every state block of every spec. -/
theorem nxt_empty_block_accepted :
    exceptIsOk (nxtStateMachine nxtEmptyBlockRaw) = true ∧
    nxtStateMachine nxtEmptyBlockRaw =
      Except.ok { name := "M", initial_state := "S0"
                  states := [{ state := "Dead", transitions := [] }] } :=
  ⟨rfl, rfl⟩

/-- Claim C6: the generated Input alphabet has exactly one entry per distinct
event name across all TransitionCases (duplicate-free keys), and an entry
`(n, fs)` is present exactly when `fs` is the field-type list of the first
occurrence of `n` in declaration order — so a later occurrence of `n` with a
different field-type list causes no error and does not change the stored
list. -/
theorem input_alphabet_first_seen (defs : List TransitionDef) :
    ((inputAlphabet (expandDefs defs)).map Prod.fst).Nodup ∧
    (∀ n fs, (n, fs) ∈ inputAlphabet (expandDefs defs) ↔
      firstFields (expandDefs defs) n = some fs) := by
  constructor
  · refine (pairwise_inputAlphabet (expandDefs defs)).imp ?_
    intro a b hab heq
    rw [heq, strLt_irrefl] at hab
    exact absurd hab (by simp)
  · intro n fs
    exact mem_inputAlphabet (expandDefs defs) n fs

/-- Witness for C6: with `E` declared first with fields `["i32"]` and later
with `["i32", "i32"]`, the alphabet stores the first-seen list. -/
theorem input_alphabet_first_seen_witness :
    ("E", ["i32"]) ∈ inputAlphabet (expandDefs arityDefs) :=
  ((input_alphabet_first_seen arityDefs).2 "E" ["i32"]).mpr rfl

/-- Claim C7: for every spec without an external Output type, the generated
Output alphabet is synthesized and its members are exactly the `Constant`
output identifiers appearing in the transition cases; `Call` outputs
contribute no member. -/
theorem outputs_are_constant_identifiers (raw : RawSM) (m : Machine)
    (hext : raw.output_type = none) (hok : state_machine raw = Except.ok m) :
    ∃ outs, m.outputs = some outs ∧
      ∀ x, x ∈ outs ↔ ∃ c ∈ m.cases, c.output = some (OutputSpec.constant x) := by
  unfold state_machine at hok
  cases hp : parseStateMachineDef raw with
  | error e => rw [hp] at hok; dsimp only at hok; exact absurd hok (by simp)
  | ok defs =>
    rw [hp] at hok
    dsimp only at hok
    by_cases hd : defs.isEmpty
    · rw [if_pos hd] at hok; exact absurd hok (by simp)
    · rw [if_neg hd] at hok
      injection hok with hok'
      subst hok'
      refine ⟨outputAlphabet (expandDefs defs), by simp [hext], ?_⟩
      intro x
      rw [mem_outputAlphabet]
      simp only [constOut_eq_some_iff]

/-- Witness for C7: the machine compiled from `mixedOutRaw` has Output
alphabet determined by its constant outputs only. -/
theorem outputs_are_constant_identifiers_witness :
    ∃ outs, mixedOutMachine.outputs = some outs ∧
      ∀ x, x ∈ outs ↔ ∃ c ∈ mixedOutMachine.cases,
        c.output = some (OutputSpec.constant x) :=
  outputs_are_constant_identifiers mixedOutRaw mixedOutMachine rfl rfl

/-- Claim C9 (two-run determinism): the compiler and the diagram renderer are
pure functions of the parsed spec — compiling the identical spec twice yields
identical machines and re-rendering yields identical diagram text (the Rust
uses only deterministic ordered containers, mirrored here by sorted lists) —
and the ordered-set container fixes the State enum variant order canonically:
any two case lists mentioning the same state-name set yield the identical
sorted variant list, independent of declaration order. -/
theorem two_run_determinism (raw raw' : RawSM) (h : raw = raw')
    (init : String) (cases cases' : List Transition)
    (hset : ∀ n, (∃ c ∈ cases, n = c.initial_state ∨ n = c.final_state) ↔
      (∃ c ∈ cases', n = c.initial_state ∨ n = c.final_state)) :
    state_machine raw = state_machine raw' ∧
    renderDiagram raw.initial_state cases = renderDiagram raw'.initial_state cases ∧
    statesAlphabet init cases = statesAlphabet init cases' := by
  refine ⟨by rw [h], by rw [h], ?_⟩
  apply sorted_ext
  · exact pairwise_statesFold cases _ (pairwise_insertStr (by simp))
  · exact pairwise_statesFold cases' _ (pairwise_insertStr (by simp))
  · intro x
    rw [mem_statesAlphabet, mem_statesAlphabet]
    exact or_congr Iff.rfl (hset x)

/-- Witness for C9: swapping the declaration order of two cases leaves the
sorted State variant list unchanged. -/
theorem two_run_determinism_witness :
    statesAlphabet "A" permCasesA = statesAlphabet "A" permCasesB :=
  (two_run_determinism noBlocksRaw noBlocksRaw rfl "A" permCasesA permCasesB
    (by intro n; simp [permCasesA, permCasesB]; tauto)).2.2

/-- Claim C10 (implicit): a machine definition containing zero transition
definitions is rejected by `state_machine` with the dedicated compile error,
and no machine is emitted; this whole-machine check (`lib.rs` 61–66) is
separate from the per-block emptiness check in `parse_transitions`. -/
theorem zero_transition_defs_error (raw : RawSM) (h : raw.blocks = []) :
    state_machine raw =
      Except.error "rust-fsm: at least one state transition must be provided" := by
  unfold state_machine parseStateMachineDef
  rw [h]
  rfl

/-- Witness for C10: the block-less machine is rejected. -/
theorem zero_transition_defs_error_witness :
    state_machine noBlocksRaw =
      Except.error "rust-fsm: at least one state transition must be provided" :=
  zero_transition_defs_error noBlocksRaw rfl

/-! ### Diagram lemmas -/

theorem choiceDecl_not_mem_nestedInner (ts : List Transition) (state : String)
    (inputs : List String) (c : String) :
    DiagLine.choiceDecl c ∉ nestedInner ts state inputs := by
  intro h
  rw [nestedInner, List.mem_flatMap] at h
  rcases h with ⟨inp, _, h⟩
  rcases List.mem_cons.mp h with h | h
  · simp at h
  · by_cases hc : isChoice ts state inp = true
    · rw [if_pos hc] at h; simp at h
    · rw [if_neg hc] at h; simp at h

theorem choiceDecl_not_mem_nestedSegment (ts : List Transition) (c : String) :
    DiagLine.choiceDecl c ∉ nestedSegment ts := by
  intro h
  rw [nestedSegment, List.mem_flatMap] at h
  rcases h with ⟨s, _, h⟩
  by_cases hn : 1 < (selfLoopInputs ts s).length
  · rw [if_pos hn] at h
    rcases List.mem_cons.mp h with h | h
    · simp at h
    · rcases List.mem_append.mp h with h | h
      · exact choiceDecl_not_mem_nestedInner ts s _ c h
      · simp at h
  · rw [if_neg hn] at h
    simp at h

theorem choiceDecl_not_mem_edgeLoop (ts : List Transition) (state : String)
    (isNested : Bool) (c : String) :
    ∀ (l : List Transition) (processed : List (String × String)),
      DiagLine.choiceDecl c ∉ edgeLoop ts state isNested l processed := by
  intro l
  induction l with
  | nil => intro processed h; simp [edgeLoop] at h
  | cons t rest ih =>
    intro processed h
    rw [edgeLoop] at h
    split at h
    · exact ih _ h
    · split at h
      · rcases List.mem_append.mp h with h | h
        · rcases List.mem_append.mp h with h | h
          · split at h <;> simp at h
          · simp at h
        · exact ih _ h
      · split at h
        · rcases List.mem_cons.mp h with h | h
          · simp at h
          · exact ih _ h
        · split at h
          · rcases List.mem_cons.mp h with h | h
            · simp at h
            · exact ih _ h
          · exact ih _ h

theorem choiceDecl_not_mem_edgesSegment (ts : List Transition) (c : String) :
    DiagLine.choiceDecl c ∉ edgesSegment ts := by
  intro h
  rw [edgesSegment, List.mem_flatMap] at h
  rcases h with ⟨s, _, h⟩
  exact choiceDecl_not_mem_edgeLoop ts s _ c _ _ h

theorem mem_choiceSegment (ts : List Transition) (c : String) :
    DiagLine.choiceDecl c ∈ choiceSegment ts ↔
      ∃ s i, c = choiceName s i ∧ isChoice ts s i = true := by
  rw [choiceSegment, List.mem_flatMap]
  constructor
  · rintro ⟨k, hk, h⟩
    by_cases hc : isChoice ts k.1 k.2 = true
    · rw [if_pos hc] at h
      have he : DiagLine.choiceDecl c = DiagLine.choiceDecl (choiceName k.1 k.2) := by
        simpa using h
      injection he with he'
      exact ⟨k.1, k.2, he', hc⟩
    · rw [if_neg hc] at h; simp at h
  · rintro ⟨s, i, rfl, hc⟩
    refine ⟨(s, i), ?_, by rw [if_pos hc]; simp⟩
    rw [mem_pairKeys]
    have hlen : 1 < (transGroup ts s i).length := by
      rw [isChoice, Bool.and_eq_true] at hc
      simpa using hc.2
    have hne : transGroup ts s i ≠ [] := by
      intro h0; rw [h0] at hlen; simp at hlen
    obtain ⟨t, ht⟩ := List.exists_mem_of_ne_nil _ hne
    rcases List.mem_filter.mp ht with ⟨hmem, hcond⟩
    rw [Bool.and_eq_true, beq_iff_eq, beq_iff_eq] at hcond
    exact ⟨t, hmem, by rw [hcond.1, hcond.2]⟩

theorem transGroup_subset_perState (ts : List Transition) (s i : String) :
    ∀ g ∈ transGroup ts s i, g ∈ perState ts s := by
  intro g hg
  rcases List.mem_filter.mp hg with ⟨hmem, hcond⟩
  rw [Bool.and_eq_true] at hcond
  exact List.mem_filter.mpr ⟨hmem, hcond.1⟩

theorem edgeLoop_emits_choice (ts : List Transition) (state : String) (isNested : Bool)
    (i : String) (hc : isChoice ts state i = true) :
    ∀ (l : List Transition) (processed : List (String × String)),
      (∃ t ∈ l, t.input_value.name = i) → (state, i) ∉ processed →
      (∀ g ∈ transGroup ts state i,
        DiagLine.choiceEdge (choiceName state i) g.final_state (guardLabel g) ∈
          edgeLoop ts state isNested l processed) ∧
      ((!isNested ||
          !((transGroup ts state i).any fun g => g.final_state == state)) = true →
        DiagLine.stateToChoice state (choiceName state i) ∈
          edgeLoop ts state isNested l processed) := by
  intro l
  induction l with
  | nil => rintro processed ⟨t, ht, -⟩ _; simp at ht
  | cons t rest ih =>
    rintro processed ⟨t', ht', hname⟩ hproc
    rw [edgeLoop]
    by_cases h1 : (state, t.input_value.name) ∈ processed
    · rw [if_pos h1]
      have hne : t.input_value.name ≠ i := by
        intro h; rw [h] at h1; exact hproc h1
      have ht'' : t' ∈ rest := by
        rcases List.mem_cons.mp ht' with rfl | h
        · exact absurd hname hne
        · exact h
      exact ih processed ⟨t', ht'', hname⟩ hproc
    · rw [if_neg h1]
      by_cases h2 : isChoice ts state t.input_value.name = true
      · rw [if_pos h2]
        by_cases heq : t.input_value.name = i
        · subst heq
          constructor
          · intro g hg
            refine List.mem_append.mpr (Or.inl (List.mem_append.mpr (Or.inr ?_)))
            exact List.mem_map.mpr ⟨g, hg, rfl⟩
          · intro hcond
            refine List.mem_append.mpr (Or.inl (List.mem_append.mpr (Or.inl ?_)))
            rw [if_pos hcond]
            simp
        · have hproc' : (state, i) ∉ (state, t.input_value.name) :: processed := by
            intro h
            rcases List.mem_cons.mp h with h | h
            · exact heq (congrArg Prod.snd h).symm
            · exact hproc h
          have ht'' : t' ∈ rest := by
            rcases List.mem_cons.mp ht' with rfl | h
            · exact absurd hname heq
            · exact h
          have hrec := ih ((state, t.input_value.name) :: processed) ⟨t', ht'', hname⟩ hproc'
          constructor
          · intro g hg
            exact List.mem_append.mpr (Or.inr (hrec.1 g hg))
          · intro hcond
            exact List.mem_append.mpr (Or.inr (hrec.2 hcond))
      · have hne : t.input_value.name ≠ i := fun h => h2 (h ▸ hc)
        have ht'' : t' ∈ rest := by
          rcases List.mem_cons.mp ht' with rfl | h
          · exact absurd hname hne
          · exact h
        have hproc' : (state, i) ∉ (state, t.input_value.name) :: processed := by
          intro h
          rcases List.mem_cons.mp h with h | h
          · exact hne (congrArg Prod.snd h).symm
          · exact hproc h
        rw [if_neg h2]
        by_cases h3 : (t.final_state != state) = true
        · rw [if_pos h3]
          have hrec := ih ((state, t.input_value.name) :: processed) ⟨t', ht'', hname⟩ hproc'
          exact ⟨fun g hg => List.mem_cons_of_mem _ (hrec.1 g hg),
                 fun hcond => List.mem_cons_of_mem _ (hrec.2 hcond)⟩
        · rw [if_neg h3]
          by_cases h4 : (!isNested) = true
          · rw [if_pos h4]
            have hrec := ih ((state, t.input_value.name) :: processed) ⟨t', ht'', hname⟩ hproc'
            exact ⟨fun g hg => List.mem_cons_of_mem _ (hrec.1 g hg),
                   fun hcond => List.mem_cons_of_mem _ (hrec.2 hcond)⟩
          · rw [if_neg h4]
            exact ih processed ⟨t', ht'', hname⟩ hproc

theorem nestedToChoice_mem_nestedInner (ts : List Transition) (state : String)
    (inputs : List String) (i : String) (hi : i ∈ inputs)
    (hc : isChoice ts state i = true) :
    DiagLine.nestedToChoice i (choiceName state i) ∈ nestedInner ts state inputs := by
  rw [nestedInner, List.mem_flatMap]
  exact ⟨i, hi, by rw [if_pos hc]; simp⟩

/-- Claim C8 as stated is false on the code: the pair `(S, E)` of
`mixedGuardTs` has exactly one guarded TransitionCase (plus one unguarded
one), yet the diagram synthesizes the choice node `S_guard_E`, because the
code's condition is "some guard present and more than one case", not "two or
more guarded cases". -/
theorem choice_node_counterexample :
    DiagLine.choiceDecl (choiceName "S" "E") ∈ build_diagram "S" mixedGuardTs ∧
    ((transGroup mixedGuardTs "S" "E").countP fun t => t.guard_expr.isSome) = 1 ∧
    2 ≤ (transGroup mixedGuardTs "S" "E").length := by
  refine ⟨by decide, by decide, by decide⟩

/-- Claim C8 amended: in the rendered diagram, a choice node labeled
`<state>_guard_<input>` is synthesized exactly for `(state, input)` pairs
whose group has at least one guarded TransitionCase and two or more cases in
total (label collisions aside, hence the existential phrasing); for every such
pair, one edge runs from the choice node to each case's target state, labeled
with the sanitized guard condition for guarded cases and unlabeled for
unguarded ones; and one routing edge reaches the choice node, from the state
itself or from the input's sub-node inside the state's composite node. -/
theorem choice_nodes_amended (init : String) (ts : List Transition) :
    (∀ c, DiagLine.choiceDecl c ∈ build_diagram init ts ↔
        ∃ s i, c = choiceName s i ∧ isChoice ts s i = true) ∧
    (∀ s i, isChoice ts s i = true →
      ∀ g ∈ transGroup ts s i,
        DiagLine.choiceEdge (choiceName s i) g.final_state (guardLabel g) ∈
          build_diagram init ts) ∧
    (∀ s i, isChoice ts s i = true →
      DiagLine.stateToChoice s (choiceName s i) ∈ build_diagram init ts ∨
      DiagLine.nestedToChoice i (choiceName s i) ∈ build_diagram init ts) := by
  have hGroupState : ∀ s i, isChoice ts s i = true → ∃ t ∈ ts,
      t.initial_state = s ∧ t.input_value.name = i := by
    intro s i hc
    rw [isChoice, Bool.and_eq_true] at hc
    have hlen : 1 < (transGroup ts s i).length := by simpa using hc.2
    have hne : transGroup ts s i ≠ [] := by intro h0; rw [h0] at hlen; simp at hlen
    obtain ⟨t, ht⟩ := List.exists_mem_of_ne_nil _ hne
    rcases List.mem_filter.mp ht with ⟨hmem, hcond⟩
    rw [Bool.and_eq_true, beq_iff_eq, beq_iff_eq] at hcond
    exact ⟨t, hmem, hcond.1, hcond.2⟩
  refine ⟨?_, ?_, ?_⟩
  · intro c
    constructor
    · intro h
      rw [build_diagram] at h
      rcases List.mem_cons.mp h with h | h
      · simp at h
      · rcases List.mem_append.mp h with h | h
        · rcases List.mem_append.mp h with h | h
          · rcases List.mem_append.mp h with h | h
            · exact absurd h (choiceDecl_not_mem_nestedSegment ts c)
            · exact (mem_choiceSegment ts c).mp h
          · exact absurd h (choiceDecl_not_mem_edgesSegment ts c)
        · simp at h
    · intro h
      rw [build_diagram]
      refine List.mem_cons_of_mem _ ?_
      refine List.mem_append.mpr (Or.inl (List.mem_append.mpr (Or.inl
        (List.mem_append.mpr (Or.inr ?_)))))
      exact (mem_choiceSegment ts c).mpr h
  · intro s i hc g hg
    obtain ⟨t, htmem, htinit, htname⟩ := hGroupState s i hc
    have hsk : s ∈ stateKeys ts := (mem_stateKeys ts s).mpr ⟨t, htmem, htinit.symm⟩
    have hper : ∃ t' ∈ perState ts s, t'.input_value.name = i :=
      ⟨t, List.mem_filter.mpr ⟨htmem, by simp [htinit]⟩, htname⟩
    have hedge := (edgeLoop_emits_choice ts s (decide (1 < (selfLoopInputs ts s).length))
      i hc (perState ts s) [] hper (by simp)).1 g hg
    rw [build_diagram]
    refine List.mem_cons_of_mem _ ?_
    refine List.mem_append.mpr (Or.inl (List.mem_append.mpr (Or.inr ?_)))
    rw [edgesSegment, List.mem_flatMap]
    exact ⟨s, hsk, hedge⟩
  · intro s i hc
    obtain ⟨t, htmem, htinit, htname⟩ := hGroupState s i hc
    have hsk : s ∈ stateKeys ts := (mem_stateKeys ts s).mpr ⟨t, htmem, htinit.symm⟩
    have hper : ∃ t' ∈ perState ts s, t'.input_value.name = i :=
      ⟨t, List.mem_filter.mpr ⟨htmem, by simp [htinit]⟩, htname⟩
    by_cases hcond : (!(decide (1 < (selfLoopInputs ts s).length)) ||
        !((transGroup ts s i).any fun g => g.final_state == s)) = true
    · left
      have hedge := (edgeLoop_emits_choice ts s (decide (1 < (selfLoopInputs ts s).length))
        i hc (perState ts s) [] hper (by simp)).2 hcond
      rw [build_diagram]
      refine List.mem_cons_of_mem _ ?_
      refine List.mem_append.mpr (Or.inl (List.mem_append.mpr (Or.inr ?_)))
      rw [edgesSegment, List.mem_flatMap]
      exact ⟨s, hsk, hedge⟩
    · right
      have h2 : (decide (1 < (selfLoopInputs ts s).length)) = true ∧
          ((transGroup ts s i).any fun g => g.final_state == s) = true := by
        have hfalse : (!(decide (1 < (selfLoopInputs ts s).length)) ||
            !((transGroup ts s i).any fun g => g.final_state == s)) = false := by
          simpa using hcond
        rcases Bool.or_eq_false_iff.mp hfalse with ⟨ha, hb⟩
        constructor
        · simpa using ha
        · simpa using hb
      obtain ⟨g, hgmem, hgfin⟩ := List.any_eq_true.mp h2.2
      rcases List.mem_filter.mp hgmem with ⟨hgmem', hgcond⟩
      rw [Bool.and_eq_true, beq_iff_eq, beq_iff_eq] at hgcond
      have hiSL : i ∈ selfLoopInputs ts s := by
        rw [mem_selfLoopInputs]
        exact ⟨g, hgmem', hgcond.1, by simpa using hgfin, hgcond.2.symm⟩
      have hnest : 1 < (selfLoopInputs ts s).length := of_decide_eq_true h2.1
      rw [build_diagram]
      refine List.mem_cons_of_mem _ ?_
      refine List.mem_append.mpr (Or.inl (List.mem_append.mpr (Or.inl
        (List.mem_append.mpr (Or.inl ?_)))))
      rw [nestedSegment, List.mem_flatMap]
      refine ⟨s, hsk, ?_⟩
      rw [if_pos hnest]
      refine List.mem_cons_of_mem _ (List.mem_append.mpr (Or.inl ?_))
      exact nestedToChoice_mem_nestedInner ts s _ i hiSL hc

/-- Witness for the amended C8: the unguarded case of the mixed pair produces
an unlabeled edge from the choice node to its target `B`. -/
theorem choice_nodes_amended_witness :
    DiagLine.choiceEdge (choiceName "S" "E") "B" "" ∈ build_diagram "S" mixedGuardTs :=
  (choice_nodes_amended "S" mixedGuardTs).2.1 "S" "E" (by decide)
    { initial_state := "S", input_value := { name := "E", fields := ["i32"] }
      guard_expr := none, final_state := "B", output := none }
    (List.mem_filter.mpr ⟨List.mem_cons_of_mem _ (List.mem_cons_self _ _), rfl⟩)
